import Mathlib

/-!
Verification of the trajectory-function framework (`Func` / `Polynomial` /
`Constant` / `PiecewiseFunc`) and of the DDP-ZMP centroidal MPC driver
(`CentroidalManagerDdpZmp`) of the BaselineWalkingController repository.

Modelling conventions:
* C++ `double` values are modelled as exact rationals `ℚ`; the two
  `std::numeric_limits<double>` bounds used by the source are the exact
  rational values of `lowest()` and `max()` for IEEE-754 binary64.
* C++ `for` loops are modelled as `List.foldl` over `List.range`,
  mirroring the loop bounds and bodies of the source.
* `std::map<double, ...>` is modelled as an association list sorted by key;
  `std::map::insert` (which never overwrites an existing key) is `mapInsert`,
  `std::map::lower_bound` is `lowerBound`.
* Operations whose C++ counterpart may throw (`mc_rtc::log::error_and_throw`)
  return `Except`; operations whose C++ counterpart has undefined behaviour on
  some inputs (dereferencing `rbegin()` of an empty map, dereferencing an
  `end()` iterator) return `Option`, with `none` for the undefined case.
-/

namespace BWC

/-- Exact value of `std::numeric_limits<double>::max()`:
`(2 - 2^-52) * 2^1023 = 2^1024 - 2^971`. -/
def doubleMax : ℚ := 2 ^ 1024 - 2 ^ 971

/-- Exact value of `std::numeric_limits<double>::lowest()` (`= -max()`). -/
def doubleLowest : ℚ := -doubleMax

/-- `Polynomial<T, Order>::operator()(t)`: starts from `coeff_[0]` and, for
`i = 0 .. Order-1`, adds `coeff_[i + 1] * std::pow(t - t0_, i + 1)`.
The coefficient array `std::array<T, Order + 1>` is modelled as the function
`coeff : ℕ → ℚ`; only indices `0 .. Order` are ever read. -/
def polyEval (Order : ℕ) (coeff : ℕ → ℚ) (t0 t : ℚ) : ℚ :=
  (List.range Order).foldl (fun ret i => ret + coeff (i + 1) * (t - t0) ^ (i + 1)) (coeff 0)

/-- `Polynomial<T, Order>::derivative(t, k)` (`k` = `derivative_order`):
if `k > Order` the zero value is returned; otherwise `ret` starts from
`coeff_[k]`, is multiplied by `(k - j)` for `j = 0 .. k-2`, and then, for
`i = 0 .. Order-k-1`, the term `coeff_[i + 1 + k] * std::pow(t - t0_, i + 1)`
multiplied by `(i + 1 + k - j)` for `j = 0 .. k-1` is added.
All loop indices stay in ranges where ℕ subtraction is exact. -/
def polyDerivative (Order : ℕ) (coeff : ℕ → ℚ) (t0 t : ℚ) (k : ℕ) : ℚ :=
  if Order < k then 0
  else
    (List.range (Order - k)).foldl
      (fun ret i =>
        ret + (List.range k).foldl
          (fun term j => term * ((i + 1 + k - j : ℕ) : ℚ))
          (coeff (i + 1 + k) * (t - t0) ^ (i + 1)))
      ((List.range (k - 1)).foldl (fun ret j => ret * ((k - j : ℕ) : ℚ)) (coeff k))

/-- A concrete `Func<T>` object stored in a `PiecewiseFunc`.  Every concrete
`Func` of the source is a `Polynomial<T, Order>` (with `Constant` being
`Polynomial<T, 0>`), represented by its coefficient array (a list of length
`Order + 1`, constant term first) and the argument offset `t0_`. -/
inductive FuncT where
  | poly (coeff : List ℚ) (t0 : ℚ)
deriving DecidableEq

/-- Virtual dispatch of `Func<T>::operator()(t)` to `Polynomial::operator()`. -/
def FuncT.eval : FuncT → ℚ → ℚ
  | .poly coeff t0, t => polyEval (coeff.length - 1) (fun i => coeff.getD i 0) t0 t

/-- Virtual dispatch of `Func<T>::derivative(t, order)` to
`Polynomial::derivative`. -/
def FuncT.deriv : FuncT → ℚ → ℕ → ℚ
  | .poly coeff t0, t, order => polyDerivative (coeff.length - 1) (fun i => coeff.getD i 0) t0 t order

/-- `Constant<T>(value)`: constructs `Polynomial<T, 0>` with coefficient array
`{value}` and the default offset `t0 = 0`. -/
def constantFunc (value : ℚ) : FuncT := .poly [value] 0

/-- `PiecewiseFunc<T>`: the ordered map `funcs_` from upper bound of domain to
function (modelled as an association list sorted by key, the `std::map`
invariant) and the lower limit `tLowerLimit_`. -/
structure PiecewiseFunc where
  funcs : List (ℚ × FuncT)
  tLowerLimit : ℚ
deriving DecidableEq

/-- The default-constructed `PiecewiseFunc` : empty map,
`tLowerLimit_ = std::numeric_limits<double>::lowest()`. -/
def PiecewiseFunc.init : PiecewiseFunc :=
  { funcs := [], tLowerLimit := doubleLowest }

/-- `std::map::insert` on a key-sorted association list: keys strictly below
the insertion key are kept in front, an equivalent key (neither `<` nor `>`)
makes the insert a no-op (the existing entry is kept, the new one dropped),
otherwise the new entry is placed before the first larger key. -/
def mapInsert : List (ℚ × FuncT) → ℚ → FuncT → List (ℚ × FuncT)
  | [], t, f => [(t, f)]
  | a :: l, t, f =>
    if t < a.1 then (t, f) :: a :: l
    else if t = a.1 then a :: l
    else a :: mapInsert l t f

/-- `std::map::lower_bound(t)` on a key-sorted association list: the first
entry whose key is not less than `t`; `none` models the `end()` iterator. -/
def lowerBound (l : List (ℚ × FuncT)) (t : ℚ) : Option (ℚ × FuncT) :=
  l.find? (fun p => decide (t ≤ p.1))

/-- `PiecewiseFunc::operator()(t)`: `checkArg(t)` reads
`funcs_.rbegin()->first` unconditionally (undefined behaviour on the empty
map, modelled by `none` on the outer `Option`), throws the out-of-range error
carrying `(tLowerLimit_, funcs_.rbegin()->first)` when
`t < tLowerLimit_ || funcs_.rbegin()->first < t`, and otherwise the call is
dispatched to `funcs_.lower_bound(t)` (dereferencing `end()` is again
undefined behaviour). -/
def PiecewiseFunc.eval (pf : PiecewiseFunc) (t : ℚ) : Option (Except (ℚ × ℚ) ℚ) :=
  pf.funcs.getLast?.bind fun last =>
    if t < pf.tLowerLimit ∨ last.1 < t then
      some (Except.error (pf.tLowerLimit, last.1))
    else
      (lowerBound pf.funcs t).map fun seg => Except.ok (seg.2.eval t)

/-- `PiecewiseFunc::derivative(t, order)`: same argument check and segment
lookup as `operator()`, dispatching to the segment's `derivative`. -/
def PiecewiseFunc.deriv (pf : PiecewiseFunc) (t : ℚ) (order : ℕ) :
    Option (Except (ℚ × ℚ) ℚ) :=
  pf.funcs.getLast?.bind fun last =>
    if t < pf.tLowerLimit ∨ last.1 < t then
      some (Except.error (pf.tLowerLimit, last.1))
    else
      (lowerBound pf.funcs t).map fun seg => Except.ok (seg.2.deriv t order)

/-- `PiecewiseFunc::domainLowerLimit()`: returns `tLowerLimit_`. -/
def PiecewiseFunc.domainLowerLimit (pf : PiecewiseFunc) : ℚ :=
  pf.tLowerLimit

/-- `PiecewiseFunc::domainUpperLimit()`: `max()` for the empty map, otherwise
`funcs_.rbegin()->first`. -/
def PiecewiseFunc.domainUpperLimit (pf : PiecewiseFunc) : ℚ :=
  match pf.funcs.getLast? with
  | none => doubleMax
  | some last => last.1

/-- `PiecewiseFunc::clearFuncs()`: `funcs_.clear()` and
`tLowerLimit_ = std::numeric_limits<double>::lowest()`. -/
def PiecewiseFunc.clearFuncs (_pf : PiecewiseFunc) : PiecewiseFunc :=
  { funcs := [], tLowerLimit := doubleLowest }

/-- `PiecewiseFunc::appendFunc(t, func)`: a plain `funcs_.insert(...)` with no
validation of `t` against the existing keys. -/
def PiecewiseFunc.appendFunc (pf : PiecewiseFunc) (t : ℚ) (f : FuncT) : PiecewiseFunc :=
  { pf with funcs := mapInsert pf.funcs t f }

/-- `PiecewiseFunc::setDomainLowerLimit(t)`. -/
def PiecewiseFunc.setDomainLowerLimit (pf : PiecewiseFunc) (t : ℚ) : PiecewiseFunc :=
  { pf with tLowerLimit := t }

/-- 3-D vector (`Eigen::Vector3d`). -/
structure Vec3 where
  x : ℚ
  y : ℚ
  z : ℚ
deriving DecidableEq

/-- One entry of the DDP control-input sequence,
`CCC::DdpZmp::DdpProblem::InputDimVector(zmp_x, zmp_y, force_z)`. -/
structure DdpInput where
  zmpX : ℚ
  zmpY : ℚ
  forceZ : ℚ
deriving DecidableEq

/-- `CCC::DdpZmp::InitialParam` as filled by
`CentroidalManagerDdpZmp::runMpc`. -/
structure DdpInitialParam where
  pos : Vec3
  vel : Vec3
  uList : List DdpInput
deriving DecidableEq

/-- The warm-start construction of `CentroidalManagerDdpZmp::runMpc`:
`initialParam.pos = mpcCom_`, `initialParam.vel = mpcComVel_`, and
`initialParam.u_list` is the solver's previous `controlData().u_list` when its
size equals `config().horizon_steps`, otherwise `horizon_steps` copies of
`InputDimVector(mpcCom_.x(), mpcCom_.y(), robotMass_ * CCC::constants::g)`. -/
def runMpcInitialParam (horizonSteps : ℕ) (prevUList : List DdpInput)
    (mpcCom mpcComVel : Vec3) (robotMass g : ℚ) : DdpInitialParam :=
  { pos := mpcCom
    vel := mpcComVel
    uList :=
      if prevUList.length = horizonSteps then prevUList
      else List.replicate horizonSteps ⟨mpcCom.x, mpcCom.y, robotMass * g⟩ }

/-- Truncation toward zero, the semantics of C++ `static_cast<int>` applied to
a floating-point value. -/
def truncToInt (q : ℚ) : ℤ :=
  if 0 ≤ q then ⌊q⌋ else ⌈q⌉

/-- The constructor arguments handed to `CCC::DdpZmp` by
`CentroidalManagerDdpZmp::reset`. -/
structure DdpZmpArgs where
  mass : ℚ
  horizonDt : ℚ
  horizonSteps : ℤ
deriving DecidableEq

/-- `CentroidalManagerDdpZmp::reset()` (the part constructing the solver):
`ddp_ = make_shared<CCC::DdpZmp>(robotMass_, config_.horizonDt,
static_cast<int>(config_.horizonDuration / config_.horizonDt))`.  The `Except`
layer is the error channel available to the code
(`mc_rtc::log::error_and_throw`); the body contains no configuration check and
never uses it. -/
def resetDdpZmp (robotMass horizonDuration horizonDt : ℚ) : Except String DdpZmpArgs :=
  Except.ok
    { mass := robotMass
      horizonDt := horizonDt
      horizonSteps := truncToInt (horizonDuration / horizonDt) }

/-! ## Helper lemmas -/

/-- A `foldl` whose step adds `f i` is the initial value plus the sum. -/
theorem foldl_add_sum (f : ℕ → ℚ) (init : ℚ) (n : ℕ) :
    (List.range n).foldl (fun r i => r + f i) init = init + ∑ i in Finset.range n, f i := by
  induction n with
  | zero => simp
  | succ m ih =>
    rw [List.range_succ, List.foldl_append, ih]
    simp [Finset.sum_range_succ]
    ring

/-- A `foldl` whose step multiplies by `f i` is the initial value times the
product. -/
theorem foldl_mul_prod (f : ℕ → ℚ) (init : ℚ) (n : ℕ) :
    (List.range n).foldl (fun r i => r * f i) init = init * ∏ i in Finset.range n, f i := by
  induction n with
  | zero => simp
  | succ m ih =>
    rw [List.range_succ, List.foldl_append, ih]
    simp [Finset.prod_range_succ]
    ring

/-- The product of the casts `(n - j : ℕ)` for `j < m` is the descending
factorial. -/
theorem prod_sub_cast (n m : ℕ) :
    ∏ j in Finset.range m, ((n - j : ℕ) : ℚ) = (n.descFactorial m : ℚ) := by
  rw [Nat.descFactorial_eq_prod_range, Nat.cast_prod]

/-- For positive `k`, the descending factorial of `k` over `k - 1` factors
already reaches `1`, so it equals the one over `k` factors. -/
theorem descFactorial_pred (k : ℕ) (hk : 0 < k) :
    k.descFactorial (k - 1) = k.descFactorial k := by
  obtain ⟨m, rfl⟩ : ∃ m, k = m + 1 := ⟨k - 1, by omega⟩
  simp [Nat.descFactorial_succ]

/-! ## Claim theorems -/

/-- Claim C5: `Polynomial::derivative(t, k)` for `k > Order` returns the
additive identity of `T` for every `t`; in particular differentiating
`Order + 1` times yields the zero function everywhere. -/
theorem polynomial_derivative_above_order_zero (Order k : ℕ) (coeff : ℕ → ℚ) (t0 t : ℚ)
    (h : Order < k) : polyDerivative Order coeff t0 t k = 0 := by
  unfold polyDerivative
  rw [if_pos h]

/-- Witness for C5: the scenario `Polynomial<scalar, 2>` with coefficients
`[1, 2, 3]`, `t0 = 0` has `derivative(2, 3) = 0`. -/
theorem polynomial_derivative_above_order_zero_witness :
    polyDerivative 2 (fun i => [(1 : ℚ), 2, 3].getD i 0) 0 2 3 = 0 :=
  polynomial_derivative_above_order_zero 2 3 (fun i => [(1 : ℚ), 2, 3].getD i 0) 0 2 (by omega)

/-- Claim C6: `Polynomial::operator()(t)` equals
`Σ_{i = 0..Order} coeff[i] * (t - t0)^i` (in particular `17` for the scenario
`Order = 2`, coefficients `[1, 2, 3]`, `t0 = 0`, `t = 2`), and a `Constant`'s
evaluation returns its stored value regardless of the argument. -/
theorem polynomial_evaluate_sum_and_constant (Order : ℕ) (coeff : ℕ → ℚ) (t0 t s value : ℚ) :
    polyEval Order coeff t0 t = ∑ i in Finset.range (Order + 1), coeff i * (t - t0) ^ i
    ∧ (constantFunc value).eval s = value
    ∧ polyEval 2 (fun i => [(1 : ℚ), 2, 3].getD i 0) 0 2 = 17 := by
  refine ⟨?_, rfl, by norm_num [polyEval, List.range_succ]⟩
  unfold polyEval
  rw [foldl_add_sum, Finset.sum_range_succ']
  simp [add_comm]

/-- Claim C1: for every `Polynomial<T, Order>` with coefficients
`coeff[0..Order]` and offset `t0`, every `t`, and every derivative order `k`
with `0 < k ≤ Order`, `derivative(t, k)` equals the analytic `k`-th
derivative: the sum over `i = 0 .. Order - k` of `coeff[i + k]` scaled by the
falling factorial `(i+k)(i+k-1)⋯(i+1)` times `(t - t0)^i`. -/
theorem polynomial_derivative_closed_form (Order k : ℕ) (coeff : ℕ → ℚ) (t0 t : ℚ)
    (hk : 0 < k) (hkO : k ≤ Order) :
    polyDerivative Order coeff t0 t k
      = ∑ i in Finset.range (Order - k + 1),
          coeff (i + k) * ((i + k).descFactorial k : ℚ) * (t - t0) ^ i := by
  unfold polyDerivative
  rw [if_neg (by omega)]
  simp only [foldl_add_sum, foldl_mul_prod, prod_sub_cast]
  rw [Finset.sum_range_succ']
  rw [descFactorial_pred k hk]
  have hterm : ∀ i ∈ Finset.range (Order - k),
      coeff (i + 1 + k) * (t - t0) ^ (i + 1) * ((i + 1 + k).descFactorial k : ℚ)
        = coeff (i + 1 + k) * ((i + 1 + k).descFactorial k : ℚ) * (t - t0) ^ (i + 1) := by
    intro i _
    ring
  rw [Finset.sum_congr rfl hterm]
  simp [add_comm]

/-- Witness for C1: the scenario `Polynomial<scalar, 2>` with coefficients
`[1, 2, 3]`, `t0 = 0`, at `t = 2` and derivative order `k = 1`; the closed
form evaluates to `2 + 6·2 = 14`. -/
theorem polynomial_derivative_closed_form_witness :
    polyDerivative 2 (fun i => [(1 : ℚ), 2, 3].getD i 0) 0 2 1
      = ∑ i in Finset.range (2 - 1 + 1),
          [(1 : ℚ), 2, 3].getD (i + 1) 0 * (((i + 1).descFactorial 1 : ℕ) : ℚ) * ((2 : ℚ) - 0) ^ i
    ∧ polyDerivative 2 (fun i => [(1 : ℚ), 2, 3].getD i 0) 0 2 1 = 14
    ∧ polyDerivative 2 (fun i => [(1 : ℚ), 2, 3].getD i 0) 0 2 2 = 6 := by
  refine ⟨polynomial_derivative_closed_form 2 1 (fun i => [(1 : ℚ), 2, 3].getD i 0) 0 2
    (by omega) (by omega), ?_, ?_⟩ <;>
    norm_num [polyDerivative, List.range_succ]

/-- Claim C2: on every `runMpc` tick the warm-start control sequence handed to
the DDP solver is the previous solve's input sequence exactly when that
sequence's length equals the configured horizon step count; otherwise
(including the very first solve after `reset()`, where the previous sequence
is empty) it is a freshly synthesized nominal sequence in which every horizon
step has horizontal ZMP equal to the current CoM's x, y position and vertical
force equal to robot mass times gravity. -/
theorem runMpc_warm_start_selection (n : ℕ) (prev : List DdpInput)
    (com vel : Vec3) (m g : ℚ) :
    (prev.length = n → (runMpcInitialParam n prev com vel m g).uList = prev)
    ∧ (prev.length ≠ n →
        (runMpcInitialParam n prev com vel m g).uList
            = List.replicate n ⟨com.x, com.y, m * g⟩
          ∧ (runMpcInitialParam n prev com vel m g).uList.length = n
          ∧ ∀ u ∈ (runMpcInitialParam n prev com vel m g).uList,
              u.zmpX = com.x ∧ u.zmpY = com.y ∧ u.forceZ = m * g)
    ∧ (runMpcInitialParam n [] com vel m g).uList
        = List.replicate n ⟨com.x, com.y, m * g⟩ := by
  refine ⟨fun h => by simp [runMpcInitialParam, h], fun h => ?_, ?_⟩
  · have huL : (runMpcInitialParam n prev com vel m g).uList
        = List.replicate n ⟨com.x, com.y, m * g⟩ := by
      simp [runMpcInitialParam, if_neg h]
    refine ⟨huL, by rw [huL]; simp, ?_⟩
    rw [huL]
    intro u hu
    rcases List.eq_of_mem_replicate hu with rfl
    exact ⟨rfl, rfl, rfl⟩
  · cases n with
    | zero => simp [runMpcInitialParam]
    | succ m' => simp [runMpcInitialParam]

/-- Witness for C2: the first MPC tick after `reset()` — empty previous input
sequence, horizon of 2 steps, CoM at `(1, 2, 3)`, mass `50`, gravity `10` —
uses the static-equilibrium warm start on every horizon step. -/
theorem runMpc_warm_start_selection_witness :
    (runMpcInitialParam 2 [] ⟨1, 2, 3⟩ ⟨0, 0, 0⟩ 50 10).uList
      = List.replicate 2 ⟨1, 2, 500⟩ := by
  have h := (runMpc_warm_start_selection 2 [] ⟨1, 2, 3⟩ ⟨0, 0, 0⟩ 50 10).2.1 (by simp)
  rw [h.1]
  norm_num

/-- Claim C8 counterexample: with `horizonDuration = 1` and `horizonDt = 2`
the horizon length `static_cast<int>(1 / 2)` resolves to `0`, yet
`CentroidalManagerDdpZmp::reset` succeeds (no `InvalidConfiguration` failure)
and hands the empty horizon straight to the solver constructor. -/
theorem reset_zero_horizon_accepted_cex :
    resetDdpZmp 60 1 2 = Except.ok { mass := 60, horizonDt := 2, horizonSteps := 0 } := by
  have h0 : truncToInt ((1 : ℚ) / 2) = 0 := by
    rw [truncToInt, if_pos (by norm_num)]
    norm_num
  rw [resetDdpZmp, h0]

/-- Claim C8 amended: `reset` computes the horizon length as the truncation of
`horizonDuration / horizonDt` and unconditionally constructs the solver with
it; no configuration validation is performed and no error is ever raised by
this code, a zero (or negative) horizon length included. -/
theorem reset_horizon_unvalidated (m d dt : ℚ) :
    ∃ args, resetDdpZmp m d dt = Except.ok args
      ∧ args.horizonSteps = truncToInt (d / dt)
      ∧ args.mass = m ∧ args.horizonDt = dt :=
  ⟨{ mass := m, horizonDt := dt, horizonSteps := truncToInt (d / dt) },
    rfl, rfl, rfl, rfl⟩

/-- An entry produced by `getLast?` is a member of the list. -/
theorem getLast_eq_mem (l : List (ℚ × FuncT)) (a : ℚ × FuncT)
    (h : l.getLast? = some a) : a ∈ l :=
  List.mem_of_mem_getLast? (Option.mem_def.mpr h)

/-- In a key-sorted association list, every key is at most the last key. -/
theorem key_le_getLast_key (l : List (ℚ × FuncT)) :
    l.Pairwise (fun a b => a.1 < b.1) → ∀ last, l.getLast? = some last →
    ∀ p ∈ l, p.1 ≤ last.1 := by
  induction l with
  | nil =>
    intro _ last h
    simp at h
  | cons a l ih =>
    intro hsort last hlast p hp
    cases l with
    | nil =>
      simp at hlast hp
      rw [hp, hlast]
    | cons b l₂ =>
      rw [List.getLast?_cons_cons] at hlast
      rcases List.mem_cons.mp hp with rfl | hp₂
      · exact le_of_lt ((List.pairwise_cons.mp hsort).1 last
          (getLast_eq_mem _ _ hlast))
      · exact ih (List.pairwise_cons.mp hsort).2 last hlast p hp₂

/-- On a key-sorted association list, `find?` with predicate `t ≤ key`
(`std::map::lower_bound`) returns the entry whose key is the smallest key
that is at least `t`. -/
theorem find_min_geq (t : ℚ) (l : List (ℚ × FuncT)) :
    l.Pairwise (fun a b => a.1 < b.1) →
    ∀ k f, (k, f) ∈ l → t ≤ k → (∀ p ∈ l, t ≤ p.1 → k ≤ p.1) →
    lowerBound l t = some (k, f) := by
  induction l with
  | nil =>
    intro _ k f h
    simp at h
  | cons a l ih =>
    intro hsort k f hmem hle hmin
    by_cases ha : t ≤ a.1
    · rw [lowerBound, List.find?_cons_of_pos _ (by simpa using ha)]
      rcases List.mem_cons.mp hmem with h | h
      · rw [h]
      · exfalso
        have h1 : a.1 < k := (List.pairwise_cons.mp hsort).1 (k, f) h
        exact absurd h1 (not_lt.mpr (hmin a (List.mem_cons_self a l) ha))
    · rw [lowerBound, List.find?_cons_of_neg _ (by simpa using ha)]
      rcases List.mem_cons.mp hmem with h | h
      · exfalso
        rw [← h] at ha
        exact ha hle
      · have := ih (List.pairwise_cons.mp hsort).2 k f h hle
          (fun p hp hpt => hmin p (List.mem_cons_of_mem a hp) hpt)
        simpa [lowerBound] using this

/-- Unfolding of `PiecewiseFunc::operator()` once the last map entry is
known. -/
theorem eval_unfold (l : List (ℚ × FuncT)) (low t : ℚ) (last : ℚ × FuncT)
    (hlast : l.getLast? = some last) :
    PiecewiseFunc.eval ⟨l, low⟩ t =
      if t < low ∨ last.1 < t then some (Except.error (low, last.1))
      else (lowerBound l t).map fun seg => Except.ok (seg.2.eval t) := by
  simp only [PiecewiseFunc.eval, hlast, Option.some_bind]

/-- Unfolding of `PiecewiseFunc::derivative` once the last map entry is
known. -/
theorem deriv_unfold (l : List (ℚ × FuncT)) (low t : ℚ) (order : ℕ)
    (last : ℚ × FuncT) (hlast : l.getLast? = some last) :
    PiecewiseFunc.deriv ⟨l, low⟩ t order =
      if t < low ∨ last.1 < t then some (Except.error (low, last.1))
      else (lowerBound l t).map fun seg => Except.ok (seg.2.deriv t order) := by
  simp only [PiecewiseFunc.deriv, hlast, Option.some_bind]

/-- Claim C3: for every `PiecewiseFunc` with at least one segment,
`operator()(t)` and `derivative(t, order)` raise an out-of-domain error that
reports both the lower limit and the last segment's upper bound exactly when
`t < lowerLimit` or `lastUpperBound < t`; inside
`[lowerLimit, lastUpperBound]` (both bounds inclusive) no error is raised. -/
theorem piecewise_out_of_domain_iff (l : List (ℚ × FuncT)) (low t : ℚ) (order : ℕ)
    (k : ℚ) (f : FuncT) (hlast : l.getLast? = some (k, f)) :
    ((t < low ∨ k < t) →
        PiecewiseFunc.eval ⟨l, low⟩ t = some (Except.error (low, k))
        ∧ PiecewiseFunc.deriv ⟨l, low⟩ t order = some (Except.error (low, k)))
    ∧ (low ≤ t → t ≤ k →
        (∃ v, PiecewiseFunc.eval ⟨l, low⟩ t = some (Except.ok v))
        ∧ ∃ v, PiecewiseFunc.deriv ⟨l, low⟩ t order = some (Except.ok v)) := by
  constructor
  · intro hout
    rw [eval_unfold l low t (k, f) hlast, deriv_unfold l low t order (k, f) hlast]
    constructor <;> rw [if_pos hout]
  · intro h1 h2
    have hnot : ¬(t < low ∨ k < t) := by
      push_neg
      exact ⟨h1, h2⟩
    have hfind : (lowerBound l t).isSome := by
      rw [lowerBound, List.find?_isSome]
      exact ⟨(k, f), getLast_eq_mem _ _ hlast, by simpa using h2⟩
    obtain ⟨seg, hseg⟩ := Option.isSome_iff_exists.mp hfind
    rw [eval_unfold l low t (k, f) hlast, deriv_unfold l low t order (k, f) hlast,
      if_neg hnot, if_neg hnot, hseg]
    exact ⟨⟨seg.2.eval t, rfl⟩, ⟨seg.2.deriv t order, rfl⟩⟩

/-- Witness for C3: the scenario segments `Constant(5)` up to `t = 1` and
`Constant(9)` up to `t = 2` with lower limit `0`: evaluating at `t = 3` fails
reporting the range `(0, 2)`, evaluating at `t = 2` (the inclusive upper
bound) succeeds. -/
theorem piecewise_out_of_domain_iff_witness :
    PiecewiseFunc.eval ⟨[(1, constantFunc 5), (2, constantFunc 9)], 0⟩ 3
      = some (Except.error (0, 2))
    ∧ ∃ v, PiecewiseFunc.eval ⟨[(1, constantFunc 5), (2, constantFunc 9)], 0⟩ 2
      = some (Except.ok v) := by
  have h := piecewise_out_of_domain_iff [(1, constantFunc 5), (2, constantFunc 9)]
    0 3 1 2 (constantFunc 9) rfl
  have h₂ := piecewise_out_of_domain_iff [(1, constantFunc 5), (2, constantFunc 9)]
    0 2 1 2 (constantFunc 9) rfl
  exact ⟨(h.1 (by norm_num)).1, (h₂.2 (by norm_num) (by norm_num)).1⟩

/-- Claim C4: for every `PiecewiseFunc` (key-sorted, the `std::map`
invariant) and every in-domain `t`, `operator()(t)` and
`derivative(t, order)` dispatch to the segment whose upper-bound key is the
smallest key that is at least `t` and return that segment's own
value/derivative; in particular at `t` equal to a segment boundary that very
segment is selected. -/
theorem piecewise_dispatch_lower_bound (l : List (ℚ × FuncT)) (low t k : ℚ)
    (f : FuncT) (order : ℕ)
    (hsort : l.Pairwise (fun a b => a.1 < b.1))
    (hmem : (k, f) ∈ l) (htk : t ≤ k)
    (hmin : ∀ p ∈ l, t ≤ p.1 → k ≤ p.1)
    (hlow : low ≤ t) :
    PiecewiseFunc.eval ⟨l, low⟩ t = some (Except.ok (f.eval t))
    ∧ PiecewiseFunc.deriv ⟨l, low⟩ t order = some (Except.ok (f.deriv t order)) := by
  have hne : l ≠ [] := by
    rintro rfl
    simp at hmem
  have hsome : l.getLast?.isSome := by
    rw [List.getLast?_isSome]
    exact hne
  obtain ⟨last, hlast⟩ := Option.isSome_iff_exists.mp hsome
  have htlast : t ≤ last.1 :=
    le_trans htk (key_le_getLast_key l hsort last hlast (k, f) hmem)
  have hnot : ¬(t < low ∨ last.1 < t) := by
    push_neg
    exact ⟨hlow, htlast⟩
  rw [eval_unfold l low t last hlast, deriv_unfold l low t order last hlast,
    if_neg hnot, if_neg hnot, find_min_geq t l hsort k f hmem htk hmin]
  exact ⟨rfl, rfl⟩

/-- Witness for C4: segments `Constant(5)` up to `t = 1` and `Constant(9)` up
to `t = 2`, lower limit `0`, evaluated exactly at the boundary `t = 1`: the
segment with upper bound `1` (not the following one) is selected, and its own
value `5` is returned. -/
theorem piecewise_dispatch_lower_bound_witness :
    PiecewiseFunc.eval ⟨[(1, constantFunc 5), (2, constantFunc 9)], 0⟩ 1
      = some (Except.ok 5) := by
  have h := piecewise_dispatch_lower_bound [(1, constantFunc 5), (2, constantFunc 9)]
    0 1 1 (constantFunc 5) 1
    (by norm_num [List.pairwise_cons])
    (List.mem_cons_self _ _) (le_refl 1)
    ?_ (by norm_num)
  · exact h.1
  · intro p hp _
    rcases List.mem_cons.mp hp with rfl | hp₂
    · norm_num
    · rcases List.mem_cons.mp hp₂ with rfl | hp₃
      · norm_num
      · simp at hp₃

/-- Claim C9: `domainLowerLimit()` returns the stored lower limit (which
defaults to the lowest `double` and is reset to it by `clearFuncs`), and
`domainUpperLimit()` returns the largest appended key when at least one
segment exists, and the maximal `double` value when no segment has been
appended. -/
theorem piecewise_domain_limits (pf : PiecewiseFunc) :
    pf.domainLowerLimit = pf.tLowerLimit
    ∧ PiecewiseFunc.init.tLowerLimit = doubleLowest
    ∧ pf.clearFuncs.funcs = [] ∧ pf.clearFuncs.tLowerLimit = doubleLowest
    ∧ (pf.funcs = [] → pf.domainUpperLimit = doubleMax)
    ∧ ∀ k f, pf.funcs.getLast? = some (k, f) →
        pf.domainUpperLimit = k
        ∧ (pf.funcs.Pairwise (fun a b => a.1 < b.1) → ∀ p ∈ pf.funcs, p.1 ≤ k) := by
  refine ⟨rfl, rfl, rfl, rfl, fun h => ?_, fun k f hlast => ⟨?_, fun hsort p hp => ?_⟩⟩
  · simp [PiecewiseFunc.domainUpperLimit, h]
  · simp [PiecewiseFunc.domainUpperLimit, hlast]
  · exact key_le_getLast_key pf.funcs hsort (k, f) hlast p hp

/-- Witness for C9: with segments up to keys `1` and `2`, the upper limit is
the largest key `2`; with no segments it is the maximal `double`. -/
theorem piecewise_domain_limits_witness :
    PiecewiseFunc.domainUpperLimit ⟨[(1, constantFunc 5), (2, constantFunc 9)], 0⟩ = 2
    ∧ PiecewiseFunc.domainUpperLimit ⟨[], 0⟩ = doubleMax := by
  have h := piecewise_domain_limits ⟨[(1, constantFunc 5), (2, constantFunc 9)], 0⟩
  have h₂ := piecewise_domain_limits ⟨[], (0 : ℚ)⟩
  exact ⟨(h.2.2.2.2.2 2 (constantFunc 9) rfl).1, h₂.2.2.2.2.1 rfl⟩

/-- Claim C10: evaluation of a `PiecewiseFunc` is only well-defined when at
least one segment has been appended: `checkArg` dereferences
`funcs_.rbegin()` before the domain test, so on the empty container
`operator()(t)` and `derivative(t, order)` have no defined result for any
`t`, even though `domainUpperLimit()` itself handles the empty case. -/
theorem piecewise_eval_empty_undefined (pf : PiecewiseFunc) (t : ℚ) (order : ℕ)
    (h : pf.funcs = []) :
    pf.eval t = none ∧ pf.deriv t order = none
    ∧ pf.domainUpperLimit = doubleMax := by
  refine ⟨?_, ?_, ?_⟩ <;>
    simp [PiecewiseFunc.eval, PiecewiseFunc.deriv, PiecewiseFunc.domainUpperLimit, h]

/-- Witness for C10: the default-constructed (empty) `PiecewiseFunc` has no
defined evaluation at `t = 0` while its `domainUpperLimit()` is defined. -/
theorem piecewise_eval_empty_undefined_witness :
    PiecewiseFunc.eval ⟨[], 0⟩ 0 = none
    ∧ PiecewiseFunc.deriv ⟨[], 0⟩ 0 1 = none
    ∧ PiecewiseFunc.domainUpperLimit ⟨[], 0⟩ = doubleMax :=
  piecewise_eval_empty_undefined ⟨[], 0⟩ 0 1 rfl

/-- `std::map::insert` with a key equal to an existing key of a key-sorted
map leaves the map unchanged (the new value is dropped). -/
theorem mapInsert_dup (t : ℚ) (f g : FuncT) : ∀ (l : List (ℚ × FuncT)),
    l.Pairwise (fun a b => a.1 < b.1) → (t, g) ∈ l → mapInsert l t f = l := by
  intro l
  induction l with
  | nil =>
    intro _ h
    simp at h
  | cons a l ih =>
    intro hsort hmem
    rcases List.mem_cons.mp hmem with h | h
    · have ha : a.1 = t := by rw [← h]
      rw [mapInsert, if_neg (by rw [ha]; exact lt_irrefl t), if_pos ha.symm]
    · have hat : a.1 < t := (List.pairwise_cons.mp hsort).1 (t, g) h
      rw [mapInsert, if_neg (not_lt.mpr hat.le),
        if_neg (by intro he; rw [he] at hat; exact lt_irrefl _ hat),
        ih (List.pairwise_cons.mp hsort).2 h]

/-- `std::map::insert` with a key below every existing key prepends the new
entry (it is silently accepted, not rejected). -/
theorem mapInsert_above (t : ℚ) (f : FuncT) : ∀ (l : List (ℚ × FuncT)),
    (∀ p ∈ l, t < p.1) → mapInsert l t f = (t, f) :: l := by
  intro l
  cases l with
  | nil =>
    intro _
    rfl
  | cons a l =>
    intro h
    rw [mapInsert, if_pos (h a (List.mem_cons_self a l))]

/-- `std::map::insert` with a key above every existing key appends the new
entry at the end (the well-formed `appendFunc` use). -/
theorem mapInsert_below (t : ℚ) (f : FuncT) : ∀ (l : List (ℚ × FuncT)),
    (∀ p ∈ l, p.1 < t) → mapInsert l t f = l ++ [(t, f)] := by
  intro l
  induction l with
  | nil =>
    intro _
    rfl
  | cons a l ih =>
    intro h
    have hat : a.1 < t := h a (List.mem_cons_self a l)
    rw [mapInsert, if_neg (not_lt.mpr hat.le),
      if_neg (by intro he; rw [he] at hat; exact lt_irrefl _ hat),
      ih (fun p hp => h p (List.mem_cons_of_mem a hp))]
    rfl

/-- Claim C7 counterexample: on the map with the single key `1`,
`appendFunc(1, ...)` is silently dropped (the map is unchanged and no failure
of any kind is produced — `appendFunc` has no failure channel at all), and
`appendFunc(0, ...)` with a key below the existing key is silently accepted
in front. -/
theorem appendFunc_no_rejection_cex :
    (PiecewiseFunc.appendFunc ⟨[(1, constantFunc 5)], 0⟩ 1 (constantFunc 9)).funcs
        = [(1, constantFunc 5)]
    ∧ (PiecewiseFunc.appendFunc ⟨[(1, constantFunc 5)], 0⟩ 0 (constantFunc 9)).funcs
        = [(0, constantFunc 9), (1, constantFunc 5)] := by
  constructor <;> norm_num [PiecewiseFunc.appendFunc, mapInsert]

/-- Claim C7 amended: `appendFunc(t, f)` performs an unvalidated
`std::map::insert`: a key equal to an existing key is silently dropped (the
map is unchanged), a key below all existing keys is silently inserted in
front, and only a key strictly greater than every previously appended key
yields the intended new terminal segment; no call is rejected and no failure
is raised. -/
theorem appendFunc_unvalidated_insert (l : List (ℚ × FuncT)) (low t : ℚ) (f g : FuncT) :
    (l.Pairwise (fun a b => a.1 < b.1) → (t, g) ∈ l →
        (PiecewiseFunc.appendFunc ⟨l, low⟩ t f).funcs = l)
    ∧ ((∀ p ∈ l, t < p.1) →
        (PiecewiseFunc.appendFunc ⟨l, low⟩ t f).funcs = (t, f) :: l)
    ∧ ((∀ p ∈ l, p.1 < t) →
        (PiecewiseFunc.appendFunc ⟨l, low⟩ t f).funcs = l ++ [(t, f)]) :=
  ⟨fun hs hm => mapInsert_dup t f g l hs hm,
    fun h => mapInsert_above t f l h,
    fun h => mapInsert_below t f l h⟩

/-- Witness for the amended C7: a duplicate key is silently dropped, and a
strictly larger key is appended as the new terminal segment. -/
theorem appendFunc_unvalidated_insert_witness :
    (PiecewiseFunc.appendFunc ⟨[(1, constantFunc 5)], 0⟩ 1 (constantFunc 9)).funcs
        = [(1, constantFunc 5)]
    ∧ (PiecewiseFunc.appendFunc ⟨[(1, constantFunc 5)], 0⟩ 2 (constantFunc 9)).funcs
        = [(1, constantFunc 5), (2, constantFunc 9)] := by
  have h := appendFunc_unvalidated_insert [(1, constantFunc 5)] 0 1
    (constantFunc 9) (constantFunc 5)
  have h₂ := appendFunc_unvalidated_insert [(1, constantFunc 5)] 0 2
    (constantFunc 9) (constantFunc 5)
  refine ⟨h.1 (by simp) (List.mem_cons_self _ _), h₂.2.2 ?_⟩
  intro p hp
  rcases List.mem_cons.mp hp with rfl | hp₂
  · norm_num
  · simp at hp₂
